import Mathlib

/-!
Verification development for the `cvision` (AI_based_resume_screener) repository.

Python strings are modeled as `List Char`; Python JSON values (results of
`json.loads`) as the inductive type `Json` below.  All definitions are
executable structural recursions (fuel-based where Python iterates over
shrinking strings) so that concrete runs reduce in the kernel.
-/

namespace CVision

/-- Turn a Lean string literal into the `List Char` model of a Python string. -/
def pys (s : String) : List Char := s.data

/-- The character `\x7b` (left curly brace). -/
def lbrace : Char := Char.ofNat 123

/-- The character `\x7d` (right curly brace). -/
def rbrace : Char := Char.ofNat 125

/-- ASCII fragment of the whitespace set stripped by Python `str.strip()`. -/
def isPyWs (c : Char) : Bool :=
  c = ' ' || c = '\t' || c = '\n' || c = '\x0d' || c = '\x0b' || c = '\x0c'

/-- Drop leading `str.strip` whitespace. -/
def dropLeadWs (s : List Char) : List Char := s.dropWhile isPyWs

/-- Drop trailing `str.strip` whitespace. -/
def dropTrailWs (s : List Char) : List Char := (s.reverse.dropWhile isPyWs).reverse

/-- Python `s.strip()`. -/
def pyStrip (s : List Char) : List Char := dropTrailWs (dropLeadWs s)

/-- Python `s.lower()` (ASCII fragment, via `Char.toLower`). -/
def pyLower (s : List Char) : List Char := s.map Char.toLower

/-- Fueled worker for `pyRemoveAll`.  Removes every non-overlapping occurrence
of `pat` from `s`, scanning left to right, like Python `s.replace(pat, "")`.
The fuel is an upper bound on the number of steps; each step consumes at least
one character of `s`, so `s.length + 1` is always enough. -/
def pyRemoveAllF : Nat → List Char → List Char → List Char
  | 0, _, s => s
  | _ + 1, _, [] => []
  | f + 1, pat, c :: rest =>
    if pat ≠ [] && pat.isPrefixOf (c :: rest) then
      pyRemoveAllF f pat ((c :: rest).drop pat.length)
    else
      c :: pyRemoveAllF f pat rest

/-- Python `s.replace(pat, "")` for a non-empty pattern `pat`. -/
def pyRemoveAll (pat s : List Char) : List Char :=
  pyRemoveAllF (s.length + 1) pat s

/-- Python `s.index(c)`: index of the first occurrence of character `c`
(`none` models the `ValueError` raised when `c` is absent). -/
def pyIndex (c : Char) : List Char → Option Nat
  | [] => none
  | x :: xs => if x = c then some 0 else (pyIndex c xs).map (· + 1)

/-- Python `s.rindex(c)`: index of the last occurrence of character `c`. -/
def pyRindex (c : Char) (s : List Char) : Option Nat :=
  (pyIndex c s.reverse).map (fun i => s.length - 1 - i)

/-- The control characters removed by `re.sub(r'[\x00-\x1f\x7f-\x9f]', '', s)`. -/
def isCtl (c : Char) : Bool :=
  c.val ≤ 0x1f || (0x7f ≤ c.val && c.val ≤ 0x9f)

/-- Model of `re.sub(r'[\x00-\x1f\x7f-\x9f]', '', s)`. -/
def removeCtl (s : List Char) : List Char := s.filter (fun c => !isCtl c)

/-- Python `needle in hay` substring test (note `"" in s` is `True`). -/
def isSubstr (needle : List Char) : List Char → Bool
  | [] => needle.isEmpty
  | c :: t => needle.isPrefixOf (c :: t) || isSubstr needle t

/-- JSON values as returned by Python `json.loads`.  A number literal with
integer part/fraction/exponent is kept as a mantissa/decimal-exponent pair
`num m e`, denoting `m * 10 ^ e`; `nan` and `inf` model the `NaN`,
`Infinity` and `-Infinity` literals accepted by Python's parser.  Object
members are kept in source order (duplicate keys possible; lookups below take
the last occurrence, matching Python dict construction). -/
inductive Json where
  | null
  | bool (b : Bool)
  | num (m : Int) (e : Int)
  | nan
  | inf (neg : Bool)
  | str (s : List Char)
  | arr (elems : List Json)
  | obj (members : List (List Char × Json))

/-- JSON whitespace skipped by Python's parser: space, tab, newline, CR. -/
def isJsonWs (c : Char) : Bool :=
  c = ' ' || c = '\t' || c = '\n' || c = '\x0d'

/-- Skip JSON whitespace. -/
def skipWs (s : List Char) : List Char := s.dropWhile isJsonWs

/-- Value of a hexadecimal digit (code points 48-57 are `0`-`9`,
97-102 are `a`-`f`, 65-70 are `A`-`F`). -/
def hexVal (c : Char) : Option Nat :=
  let n := c.toNat
  if 48 ≤ n && n ≤ 57 then some (n - 48)
  else if 97 ≤ n && n ≤ 102 then some (n - 87)
  else if 65 ≤ n && n ≤ 70 then some (n - 55)
  else none

/-- Parse the body of a JSON string literal (after the opening quote),
returning the decoded characters and the rest of the input.  Mirrors Python's
strict scanner: escapes `\" \\ \/ \b \f \n \r \t \uXXXX`, and raw control
characters below `0x20` are rejected. -/
def parseStr : List Char → Option (List Char × List Char)
  | [] => none
  | c :: rest =>
    if c = '"' then some ([], rest)
    else if c = '\\' then
      match rest with
      | [] => none
      | e :: rest2 =>
        if e = '"' then (parseStr rest2).map (fun p => ('"' :: p.1, p.2))
        else if e = '\\' then (parseStr rest2).map (fun p => ('\\' :: p.1, p.2))
        else if e = '/' then (parseStr rest2).map (fun p => ('/' :: p.1, p.2))
        else if e = 'b' then (parseStr rest2).map (fun p => ('\x08' :: p.1, p.2))
        else if e = 'f' then (parseStr rest2).map (fun p => ('\x0c' :: p.1, p.2))
        else if e = 'n' then (parseStr rest2).map (fun p => ('\n' :: p.1, p.2))
        else if e = 'r' then (parseStr rest2).map (fun p => ('\x0d' :: p.1, p.2))
        else if e = 't' then (parseStr rest2).map (fun p => ('\t' :: p.1, p.2))
        else if e = 'u' then
          match rest2 with
          | h1 :: h2 :: h3 :: h4 :: rest3 =>
            match hexVal h1, hexVal h2, hexVal h3, hexVal h4 with
            | some a, some b, some c3, some d =>
              (parseStr rest3).map
                (fun p => (Char.ofNat (((a * 16 + b) * 16 + c3) * 16 + d) :: p.1, p.2))
            | _, _, _, _ => none
          | _ => none
        else none
    else if c.val < 0x20 then none
    else (parseStr rest).map (fun p => (c :: p.1, p.2))

/-- Digits of a number literal, most significant first, folded to a `Nat`
(code point 48 is `0`). -/
def digitsToNat (ds : List Char) : Nat :=
  ds.foldl (fun acc d => acc * 10 + (d.toNat - 48)) 0

/-- Check for a decimal digit. -/
def isDigit (c : Char) : Bool := '0' ≤ c && c ≤ '9'

/-- Parse the integer-part digits per Python's `NUMBER_RE`:
either a single `0`, or a nonzero digit followed by digits. -/
def parseIntDigits : List Char → Option (List Char × List Char)
  | [] => none
  | c :: rest =>
    if c = '0' then some ([c], rest)
    else if isDigit c then some (c :: rest.takeWhile isDigit, rest.dropWhile isDigit)
    else none

/-- Parse a JSON number literal per Python's
`(-?(?:0|[1-9]\d*))(\.\d+)?([eE][-+]?\d+)?`, returning `num m e` with value
`m * 10 ^ e`, and the unconsumed input.  The optional fraction/exponent groups
are taken only when fully well-formed, as with a greedy regex. -/
def parseNum (cs : List Char) : Option (Json × List Char) :=
  let (neg, cs1) : Bool × List Char :=
    match cs with
    | '-' :: t => (true, t)
    | _ => (false, cs)
  match parseIntDigits cs1 with
  | none => none
  | some (ids, cs2) =>
    let (fds, cs3) : List Char × List Char :=
      match cs2 with
      | '.' :: t =>
        if (t.takeWhile isDigit) = [] then ([], cs2)
        else (t.takeWhile isDigit, t.dropWhile isDigit)
      | _ => ([], cs2)
    let (hasExp, expNeg, eds, cs4) : Bool × Bool × List Char × List Char :=
      match cs3 with
      | 'e' :: '-' :: t =>
        if (t.takeWhile isDigit) = [] then (false, false, [], cs3)
        else (true, true, t.takeWhile isDigit, t.dropWhile isDigit)
      | 'e' :: '+' :: t =>
        if (t.takeWhile isDigit) = [] then (false, false, [], cs3)
        else (true, false, t.takeWhile isDigit, t.dropWhile isDigit)
      | 'e' :: t =>
        if (t.takeWhile isDigit) = [] then (false, false, [], cs3)
        else (true, false, t.takeWhile isDigit, t.dropWhile isDigit)
      | 'E' :: '-' :: t =>
        if (t.takeWhile isDigit) = [] then (false, false, [], cs3)
        else (true, true, t.takeWhile isDigit, t.dropWhile isDigit)
      | 'E' :: '+' :: t =>
        if (t.takeWhile isDigit) = [] then (false, false, [], cs3)
        else (true, false, t.takeWhile isDigit, t.dropWhile isDigit)
      | 'E' :: t =>
        if (t.takeWhile isDigit) = [] then (false, false, [], cs3)
        else (true, false, t.takeWhile isDigit, t.dropWhile isDigit)
      | _ => (false, false, [], cs3)
    let mAbs : Nat := digitsToNat (ids ++ fds)
    let m : Int := if neg then -(mAbs : Int) else (mAbs : Int)
    let expVal : Int :=
      if hasExp then
        (if expNeg then -(digitsToNat eds : Int) else (digitsToNat eds : Int))
      else 0
    some (Json.num m (expVal - (fds.length : Int)), cs4)

mutual

/-- Parse one JSON value, mirroring Python's `json.loads` scanner.  `fuel`
bounds the number of recursive steps; every recursive call is preceded by the
consumption of at least one input character, so `input.length + 2` suffices. -/
def parseVal : Nat → List Char → Option (Json × List Char)
  | 0, _ => none
  | fuel + 1, cs =>
    match cs with
    | [] => none
    | c :: rest =>
      if c = lbrace then
        match skipWs rest with
        | d :: rest1 =>
          if d = rbrace then some (Json.obj [], rest1)
          else
            match parseMembers fuel (skipWs rest) with
            | some (kvs, r) => some (Json.obj kvs, r)
            | none => none
        | [] => none
      else if c = '[' then
        match skipWs rest with
        | d :: rest1 =>
          if d = ']' then some (Json.arr [], rest1)
          else
            match parseElems fuel (skipWs rest) with
            | some (vs, r) => some (Json.arr vs, r)
            | none => none
        | [] => none
      else if c = '"' then
        match parseStr rest with
        | some (s, r) => some (Json.str s, r)
        | none => none
      else if (pys "true").isPrefixOf cs then some (Json.bool true, cs.drop 4)
      else if (pys "false").isPrefixOf cs then some (Json.bool false, cs.drop 5)
      else if (pys "null").isPrefixOf cs then some (Json.null, cs.drop 4)
      else if (pys "NaN").isPrefixOf cs then some (Json.nan, cs.drop 3)
      else if (pys "Infinity").isPrefixOf cs then some (Json.inf false, cs.drop 8)
      else if (pys "-Infinity").isPrefixOf cs then some (Json.inf true, cs.drop 9)
      else parseNum cs

/-- Parse the members of a JSON object (input positioned at the first key's
opening quote). -/
def parseMembers : Nat → List Char → Option (List (List Char × Json) × List Char)
  | 0, _ => none
  | fuel + 1, cs =>
    match cs with
    | '"' :: rest =>
      match parseStr rest with
      | none => none
      | some (key, r1) =>
        match skipWs r1 with
        | ':' :: r2 =>
          match parseVal fuel (skipWs r2) with
          | none => none
          | some (v, r3) =>
            match skipWs r3 with
            | ',' :: r4 =>
              match parseMembers fuel (skipWs r4) with
              | some (kvs, r5) => some ((key, v) :: kvs, r5)
              | none => none
            | d :: r4 =>
              if d = rbrace then some ([(key, v)], r4) else none
            | [] => none
        | _ => none
    | _ => none

/-- Parse the elements of a JSON array (input positioned at the first
element). -/
def parseElems : Nat → List Char → Option (List Json × List Char)
  | 0, _ => none
  | fuel + 1, cs =>
    match parseVal fuel cs with
    | none => none
    | some (v, r1) =>
      match skipWs r1 with
      | ',' :: r2 =>
        match parseElems fuel (skipWs r2) with
        | some (vs, r3) => some (v :: vs, r3)
        | none => none
      | d :: r2 =>
        if d = ']' then some ([v], r2) else none
      | [] => none

end

/-- Model of Python `json.loads`: parse one value surrounded by optional
whitespace; trailing data is an error (`none` models `JSONDecodeError`). -/
def pyLoads (cs : List Char) : Option Json :=
  match parseVal (cs.length + 2) (skipWs cs) with
  | some (v, rest) => if skipWs rest = [] then some v else none
  | none => none

/-- The preprocessing of `_clean_json_response` (fapp.py line 80):
`response.replace("```json", "").replace("```", "").strip()`. -/
def preprocess (raw : List Char) : List Char :=
  pyStrip (pyRemoveAll (pys "```") (pyRemoveAll (pys "```json") raw))

/-- Model of `ResumeJobMatcher._clean_json_response` (fapp.py lines 78-94,
identical in f.py lines 69-85).  Strips code fences, tries a direct parse;
on failure slices from the first `\x7b` to the last `\x7d`, removes control
characters, and retries; on any remaining failure (including absent braces,
which raise a caught `ValueError`) returns the empty mapping.  Every failure
path is caught in the source, so the model is a total function. -/
def clean_json_response (raw : List Char) : Json :=
  let response := preprocess raw
  match pyLoads response with
  | some v => v
  | none =>
    match pyIndex lbrace response, pyRindex rbrace response with
    | some s, some e =>
      let json_str := (response.drop s).take (e + 1 - s)
      match pyLoads (removeCtl json_str) with
      | some v => v
      | none => Json.obj []
    | _, _ => Json.obj []

/-! ### split_dom_content (scraper.py lines 61-74) -/

/-- Python `content.split('\n')`: e.g. `"" ↦ [""]`, `"a\n" ↦ ["a", ""]`. -/
def splitOnNl : List Char → List (List Char)
  | [] => [[]]
  | c :: rest =>
    if c = '\n' then [] :: splitOnNl rest
    else
      match splitOnNl rest with
      | l :: ls => (c :: l) :: ls
      | [] => [[c]]

/-- The accumulation loop of `split_dom_content`: `current` is Python's
`current_chunk`.  The source appends finished chunks to a growing list; the
model produces the same list by consing.  A chunk is closed (and stripped)
when adding the next line would exceed `maxChars`; the final chunk is kept
when `current_chunk` is non-empty (Python truthiness of `str`). -/
def chunksGo (maxChars : Nat) : List (List Char) → List Char → List (List Char)
  | [], current => if current.isEmpty then [] else [pyStrip current]
  | p :: rest, current =>
    if current.length + p.length + 1 > maxChars then
      pyStrip current :: chunksGo maxChars rest p
    else
      chunksGo maxChars rest (current ++ '\n' :: p)

/-- Model of `split_dom_content(content, max_chars)` (scraper.py lines 61-74). -/
def split_dom_content (content : List Char) (maxChars : Nat) : List (List Char) :=
  chunksGo maxChars (splitOnNl content) []

/-! ### Job listings, filtering (fapp.py lines 179-199, f.py lines 152-172;
the two `filter_jobs` bodies are character-identical) -/

/-- A `JobListing` mapping, with the schema produced by `_extract_job_details`
(all fields strings or lists of strings; the spec's section 3 data model). -/
structure Job where
  job_title : List Char
  company : List Char
  location : List Char
  description : List Char
  requirements : List (List Char)
  skills_required : List (List Char)
  experience_level : List Char
  salary_range : List Char
deriving DecidableEq

/-- The location test of `filter_jobs` (with `loc` already lowercased):
`location in job_location or not location`. -/
def locationTest (loc : List Char) (job : Job) : Bool :=
  isSubstr loc (pyLower job.location) || loc.isEmpty

/-- The keyword test of `filter_jobs` (with `kw` already lowercased):
`keyword in job_title or keyword in job_description or
any(keyword in req.lower() for req in job.get("requirements", []))`. -/
def keywordTest (kw : List Char) (job : Job) : Bool :=
  isSubstr kw (pyLower job.job_title) ||
  isSubstr kw (pyLower job.description) ||
  job.requirements.any (fun req => isSubstr kw (pyLower req))

/-- The per-job condition of the `filter_jobs` loop. -/
def passes (loc kw : List Char) (job : Job) : Bool :=
  locationTest loc job && keywordTest kw job

/-- Model of `ResumeJobMatcher.filter_jobs` (fapp.py lines 179-199):
lowercase the criteria, keep jobs passing both tests in order, truncate to the
first 5 (`filtered[:5]`). -/
def filter_jobs (jobs : List Job) (location keyword : List Char) : List Job :=
  ((jobs.filter (passes (pyLower location) (pyLower keyword))).take 5)

/-! ### Resume matching pipeline (fapp.py lines 96-177, f.py lines 87-150) -/

/-- A Python dict with string keys, used for the parsed resume. -/
def PyDict : Type := List (List Char × Json)

/-- Python `'k' in d` for a dict `d`. -/
def hasKey (d : PyDict) (k : List Char) : Bool :=
  d.any (fun kv => kv.1 == k)

/-- Python truthiness of a JSON value (`match_data or {...}` in fapp.py
line 148): empty dict/list/string, zero, `None` and `False` are falsy. -/
def jsonTruthy : Json → Bool
  | .null => false
  | .bool b => b
  | .num m _ => m != 0
  | .nan => true
  | .inf _ => true
  | .str s => !s.isEmpty
  | .arr l => !l.isEmpty
  | .obj l => !l.isEmpty

/-- Python `d.get(k, default)` on a parsed JSON object's members; duplicate
keys resolve to the last occurrence, as in Python dict construction. -/
def jGet (kvs : List (List Char × Json)) (k : List Char) (dflt : Json) : Json :=
  match kvs.reverse.find? (fun kv => kv.1 == k) with
  | some kv => kv.2
  | none => dflt

/-- A job listing merged with its match details
(`\x7b**job, "match_details": ...\x7d`). -/
structure MatchedJob where
  job : Job
  match_details : Json

/-- The placeholder attached in fapp.py lines 148-156 when the sanitized
match data is falsy (`match_data or \x7b...\x7d`). -/
def noDataPlaceholder : Json :=
  Json.obj
    [(pys "match_score", Json.num 0 0),
     (pys "matched_skills", Json.arr []),
     (pys "missing_skills", Json.arr []),
     (pys "match_reasoning", Json.str (pys "No match data available.")),
     (pys "matched_experience", Json.arr []),
     (pys "improvement_suggestions", Json.arr []),
     (pys "additional_comments", Json.str (pys ""))]

/-- The placeholder appended in fapp.py lines 160-171 when matching a job
raises; `msg` is `str(e)`. -/
def errorPlaceholder (msg : List Char) : Json :=
  Json.obj
    [(pys "match_score", Json.num 0 0),
     (pys "matched_skills", Json.arr []),
     (pys "missing_skills", Json.arr []),
     (pys "match_reasoning", Json.str (pys "Error during matching.")),
     (pys "matched_experience", Json.arr []),
     (pys "improvement_suggestions", Json.arr []),
     (pys "additional_comments", Json.str msg)]

/-- One iteration of the matching loop in fapp.py lines 136-171.  The LLM
call for a job is modeled by the oracle `llm`, which returns either the raw
response text or the message of a raised exception. -/
def matchOne (llm : Job → Except (List Char) (List Char)) (job : Job) : MatchedJob :=
  match llm job with
  | .ok resp =>
    let matchData := clean_json_response resp
    ⟨job, if jsonTruthy matchData then matchData else noDataPlaceholder⟩
  | .error e => ⟨job, errorPlaceholder e⟩

/-- One iteration of the matching loop in f.py lines 128-144: no truthiness
fallback, and a raised exception only logs — the job is dropped. -/
def fMatchOne (llm : Job → Except (List Char) (List Char)) (job : Job) :
    Option MatchedJob :=
  match llm job with
  | .ok resp => some ⟨job, clean_json_response resp⟩
  | .error _ => none

/-- Exceptions that can escape `match_resume_to_jobs` (raised while the sort
computes its keys, which is not inside any per-job `try`). -/
inductive PyErr where
  | attributeError
  | typeError
deriving DecidableEq

/-- The rational value `m * 10 ^ e` of a parsed number literal, computed with
explicit integer arithmetic so that it evaluates by kernel reduction. -/
def scoreQ (m e : Int) : ℚ :=
  match e with
  | .ofNat n => ((m * 10 ^ n : ℤ) : ℚ)
  | .negSucc n => mkRat m (10 ^ (n + 1))

/-- The sort key `x.get("match_details", \x7b\x7d).get("match_score", 0)`
(fapp.py line 174).  `match_details` is always present on the merged mapping;
`.get` on a non-dict value raises `AttributeError`.  A numeric (or boolean,
which Python compares as an integer) score yields a rational key; any other
score type makes key comparison Python-type-error territory and is modeled as
an error. -/
def keyQ (e : MatchedJob) : Except PyErr ℚ :=
  match e.match_details with
  | .obj kvs =>
    match jGet kvs (pys "match_score") (Json.num 0 0) with
    | .num m ex => .ok (scoreQ m ex)
    | .bool b => .ok (if b then 1 else 0)
    | _ => .error .typeError
  | _ => .error .attributeError

/-- Total version of the sort key, used in theorem statements; agrees with
`keyQ` whenever the latter succeeds. -/
def scoreOf (e : MatchedJob) : ℚ :=
  match keyQ e with
  | .ok q => q
  | .error _ => 0

/-- CPython `list.sort(key=...)` first computes the key of every element in
list order; the first raised exception propagates. -/
def computeKeys : List MatchedJob → Except PyErr (List (ℚ × MatchedJob))
  | [] => .ok []
  | e :: es =>
    match keyQ e with
    | .error err => .error err
    | .ok q =>
      match computeKeys es with
      | .error err => .error err
      | .ok rest => .ok ((q, e) :: rest)

/-- Insert into a descending-sorted keyed list, before the first element with
a key less than or equal to the inserted key.  Used with `foldr`, this is a
stable descending sort: an element keeps its place ahead of equal-keyed
elements that follow it in the input, exactly as Python's stable `list.sort`
with `reverse=True`. -/
def insertKeyedDesc (x : ℚ × MatchedJob) :
    List (ℚ × MatchedJob) → List (ℚ × MatchedJob)
  | [] => [x]
  | y :: ys => if y.1 ≤ x.1 then x :: y :: ys else y :: insertKeyedDesc x ys

/-- Stable descending sort on precomputed keys; the output of a stable sort
is unique, so any stable implementation models Python's Timsort. -/
def sortKeyedDesc (l : List (ℚ × MatchedJob)) : List (ℚ × MatchedJob) :=
  l.foldr insertKeyedDesc []

/-- Model of `ResumeJobMatcher.match_resume_to_jobs` (fapp.py lines 96-177).
`resume` is the mapping returned by `parse_resume_from_file`; an `'error'`
key short-circuits to the empty list.  Otherwise each job is matched in order
(the loop is a `map`, since every job appends exactly one entry), and the
result is sorted descending by match score; a sort-key failure escapes as an
exception. -/
def match_resume_to_jobs (resume : PyDict)
    (llm : Job → Except (List Char) (List Char)) (jobs : List Job) :
    Except PyErr (List MatchedJob) :=
  if hasKey resume (pys "error") then .ok []
  else
    let matchedJobs := jobs.map (matchOne llm)
    match computeKeys matchedJobs with
    | .error e => .error e
    | .ok decorated => .ok ((sortKeyedDesc decorated).map (fun kv => kv.2))

/-- Model of the f.py variant `ResumeJobMatcher.match_resume_to_jobs`
(f.py lines 87-150): identical shape, but a job whose matching raises is
skipped (the `except` branch only logs), and falsy match data is attached
as-is. -/
def f_match_resume_to_jobs (resume : PyDict)
    (llm : Job → Except (List Char) (List Char)) (jobs : List Job) :
    Except PyErr (List MatchedJob) :=
  if hasKey resume (pys "error") then .ok []
  else
    let matchedJobs := jobs.filterMap (fMatchOne llm)
    match computeKeys matchedJobs with
    | .error e => .error e
    | .ok decorated => .ok ((sortKeyedDesc decorated).map (fun kv => kv.2))

/-! ### The upload flow (fapp.py lines 208-282) -/

/-- The inputs of a POST to `/upload` that the flow branches on. -/
structure UploadRequest where
  hasResumeFile : Bool
  filename : List Char
  location : List Char
  jobPreference : List Char

/-- What gets dumped to `output/top_5_matched_jobs.json`: either the top five
matched jobs, or (fapp.py lines 262-264) the filtered jobs without match
details when matching returned an empty list. -/
inductive WriteContent where
  | matchedTop (l : List MatchedJob)
  | fallbackTop (l : List Job)

/-- The observable outcome of the upload flow: flashed messages
(message, category), the result-file write if any, and the redirect target. -/
structure UploadOutcome where
  flashes : List (List Char × List Char)
  written : Option WriteContent
  redirect : List Char

/-- The extension after the last dot, for `filename.rsplit('.', 1)[1]`. -/
def extAfterLastDot (s : List Char) : List Char :=
  (s.reverse.takeWhile (fun c => c ≠ '.')).reverse

/-- Model of `allowed_file` (fapp.py lines 201-202). -/
def allowed_file (filename : List Char) : Bool :=
  filename.contains '.' &&
  [pys "pdf", pys "docx", pys "doc", pys "rtf"].contains
    (pyLower (extAfterLastDot filename))

/-- A short rendering of an escaped exception for the flash message
`f'Error processing resume: \x7bstr(e)\x7d'`. -/
def showErr : PyErr → List Char
  | .attributeError => pys "AttributeError"
  | .typeError => pys "TypeError"

/-- Model of the POST branch of `upload` (fapp.py lines 208-282).  External
effects are oracles: `scraped` is the list produced by `scrape_job_listings`,
`resume` the mapping from `parse_resume_from_file`, `llm` the per-job model
call.  File saving/removal in the upload folder has no bearing on the flashes,
result write or redirect and is elided. -/
def uploadPost (req : UploadRequest) (scraped : List Job) (resume : PyDict)
    (llm : Job → Except (List Char) (List Char)) : UploadOutcome :=
  if !req.hasResumeFile then
    ⟨[(pys "No file part in the request", pys "error")], none, pys "upload"⟩
  else if req.filename.isEmpty then
    ⟨[(pys "No selected file", pys "error")], none, pys "upload"⟩
  else if !allowed_file req.filename then
    ⟨[(pys "File type not allowed. Please upload PDF, DOCX, DOC, or RTF.",
       pys "error")], none, pys "upload"⟩
  else
    let location := pyLower (pyStrip req.location)
    let jobPreference := pyLower (pyStrip req.jobPreference)
    let filteredJobs := filter_jobs scraped location jobPreference
    if filteredJobs.isEmpty then
      ⟨[(pys "No jobs matched your criteria.", pys "error")], none, pys "upload"⟩
    else
      match match_resume_to_jobs resume llm filteredJobs with
      | .error e =>
        ⟨[(pys "Error processing resume: " ++ showErr e, pys "error")],
         none, pys "upload"⟩
      | .ok matchedJobs =>
        if matchedJobs.isEmpty then
          ⟨[(pys "Resume uploaded and processed successfully!", pys "success")],
           some (.fallbackTop (filteredJobs.take 5)), pys "results"⟩
        else
          ⟨[(pys "Resume uploaded and processed successfully!", pys "success")],
           some (.matchedTop (matchedJobs.take 5)), pys "results"⟩

/-! ### scrape_website (scraper.py lines 37-50) -/

/-- Which of the external browser operations raise in a given run. -/
structure ScrapeEnv where
  createFails : Bool
  getFails : Bool
  pageSourceFails : Bool
  quitFails : Bool
  pageSource : List Char

/-- The observable outcome of `scrape_website`: the returned string, whether
a browser session was launched, and whether `driver.quit()` was reached. -/
structure ScrapeOutcome where
  result : List Char
  launched : Bool
  quitCalled : Bool
deriving DecidableEq

/-- Model of `scrape_website` (scraper.py lines 37-50).  The body is a single
`try` with no `finally`: `create_webdriver`, `driver.get`, `page_source` and
`driver.quit` run in sequence, and the `except` branch returns the empty
string.  `driver.quit()` is reached only if none of the preceding calls
raised. -/
def scrape_website (env : ScrapeEnv) : ScrapeOutcome :=
  if env.createFails then ⟨[], false, false⟩
  else if env.getFails then ⟨[], true, false⟩
  else if env.pageSourceFails then ⟨[], true, false⟩
  else if env.quitFails then ⟨[], true, true⟩
  else ⟨env.pageSource, true, true⟩

/-- Whether a run of `scrape_website` hit any failure. -/
def ScrapeEnv.anyFail (env : ScrapeEnv) : Bool :=
  env.createFails || env.getFails || env.pageSourceFails || env.quitFails

/-! ### Reconstruction helpers and concrete scenario data -/

/-- Join chunks with the newline separator reinserted between them. -/
def joinNl : List (List Char) → List Char
  | [] => []
  | [c] => c
  | c :: cs => c ++ '\n' :: joinNl cs

/-- The concatenation `'\n' ++ p` for each remaining line, in order. -/
def flatNl (R : List (List Char)) : List Char :=
  R.foldr (fun p acc => '\n' :: p ++ acc) []

/-- A line that is non-empty and carries no leading or trailing
`str.strip` whitespace. -/
def trimmedLine (p : List Char) : Bool :=
  !p.isEmpty && (p.head?.all fun a => !isPyWs a) && (p.getLast?.all fun b => !isPyWs b)

/-- A job listing with the given title and every other field empty. -/
def mkJob (t : String) : Job := ⟨pys t, [], [], [], [], [], [], []⟩

/-- The seven jobs of the ranking scenario in the spec (section 8). -/
def cJobs7 : List Job :=
  [mkJob "j1", mkJob "j2", mkJob "j3", mkJob "j4", mkJob "j5", mkJob "j6", mkJob "j7"]

/-- An LLM oracle replying with match scores `[90,40,90,10,70,0,55]` for the
seven scenario jobs. -/
def cOracle7 (j : Job) : Except (List Char) (List Char) :=
  if j.job_title == pys "j1" then .ok (pys "\x7b\"match_score\": 90\x7d")
  else if j.job_title == pys "j2" then .ok (pys "\x7b\"match_score\": 40\x7d")
  else if j.job_title == pys "j3" then .ok (pys "\x7b\"match_score\": 90\x7d")
  else if j.job_title == pys "j4" then .ok (pys "\x7b\"match_score\": 10\x7d")
  else if j.job_title == pys "j5" then .ok (pys "\x7b\"match_score\": 70\x7d")
  else if j.job_title == pys "j6" then .ok (pys "\x7b\"match_score\": 0\x7d")
  else if j.job_title == pys "j7" then .ok (pys "\x7b\"match_score\": 55\x7d")
  else .error (pys "unexpected job")

/-- First job of the drop counterexample. -/
def cJobA : Job := mkJob "alpha"

/-- Second job of the drop counterexample. -/
def cJobB : Job := mkJob "beta"

/-- An oracle whose call raises for `cJobA` and succeeds for every other job. -/
def cOracleDrop (j : Job) : Except (List Char) (List Char) :=
  if j.job_title == pys "alpha" then .error (pys "boom")
  else .ok (pys "\x7b\"match_score\": 50\x7d")

/-- A well-formed upload request with empty location and keyword. -/
def cReq : UploadRequest := ⟨true, pys "resume.pdf", [], []⟩

/-- The error mapping returned by `parse_resume_from_file` for a document
with no extractable text. -/
def cErrResume : PyDict :=
  [(pys "error", Json.str (pys "Failed to extract text from PDF"))]

/-- An oracle that is never consulted in the parse-error run. -/
def cOracleNever (_ : Job) : Except (List Char) (List Char) :=
  .error (pys "unused")

/-- A scrape run in which navigation (`driver.get`) raises. -/
def cScrapeEnvGetFails : ScrapeEnv := ⟨false, true, false, false, pys "page"⟩

/-- The filter scenario job of the spec (section 8). -/
def cFilterJob : Job :=
  { mkJob "Software Engineer" with location := pys "Kathmandu, Nepal" }

/-- Six distinct jobs, to exercise the truncation to five. -/
def cSixJobs : List Job :=
  [mkJob "a", mkJob "b", mkJob "c", mkJob "d", mkJob "e", mkJob "f"]

/-- Match details holding only an integer match score. -/
def cMd (n : Int) : Json := Json.obj [(pys "match_score", Json.num n 0)]

/-- The expected output of the seven-job ranking scenario: stable descending
order with the first 90 (job 1) before the second 90 (job 3). -/
def cOut7 : List MatchedJob :=
  [⟨mkJob "j1", cMd 90⟩, ⟨mkJob "j3", cMd 90⟩, ⟨mkJob "j5", cMd 70⟩,
   ⟨mkJob "j7", cMd 55⟩, ⟨mkJob "j2", cMd 40⟩, ⟨mkJob "j4", cMd 10⟩,
   ⟨mkJob "j6", cMd 0⟩]

/-- The fapp.py output for the drop counterexample inputs: the failing job
stays, with the score-0 error placeholder. -/
def cOutDrop : List MatchedJob :=
  [⟨cJobB, cMd 50⟩, ⟨cJobA, errorPlaceholder (pys "boom")⟩]

/-! ## Theorems -/

theorem isSubstr_nil (hay : List Char) : isSubstr [] hay = true := by
  cases hay <;> simp [isSubstr, List.isPrefixOf, List.isEmpty]

theorem passes_nil (j : Job) : passes [] [] j = true := by
  simp [passes, locationTest, keywordTest, isSubstr_nil, List.isEmpty]

theorem filter_jobs_passes (jobs : List Job) (location keyword : List Char) :
    ∀ j ∈ filter_jobs jobs location keyword,
      passes (pyLower location) (pyLower keyword) j = true := by
  intro j hj
  have hj' : j ∈ jobs.filter (passes (pyLower location) (pyLower keyword)) :=
    (List.take_sublist _ _).subset hj
  exact (List.mem_filter.mp hj').2

theorem filter_jobs_length_le (jobs : List Job) (location keyword : List Char) :
    (filter_jobs jobs location keyword).length ≤ 5 := by
  simp only [filter_jobs, List.length_take]
  exact Nat.min_le_left _ _

/-- C8: `filter_jobs` is idempotent, and its output is (a subsequence of the
input consisting of) at most five jobs, each passing both the location and
keyword tests.  Corresponds to fapp.py lines 179-199. -/
theorem C8_filter_idempotent_first5 (jobs : List Job) (location keyword : List Char) :
    filter_jobs (filter_jobs jobs location keyword) location keyword
      = filter_jobs jobs location keyword ∧
    List.Sublist (filter_jobs jobs location keyword) jobs ∧
    (filter_jobs jobs location keyword).length ≤ 5 ∧
    ∀ j ∈ filter_jobs jobs location keyword,
      passes (pyLower location) (pyLower keyword) j = true := by
  refine ⟨?_, ?_, filter_jobs_length_le jobs location keyword,
    filter_jobs_passes jobs location keyword⟩
  · show ((filter_jobs jobs location keyword).filter
      (passes (pyLower location) (pyLower keyword))).take 5 = _
    rw [List.filter_eq_self.mpr (filter_jobs_passes jobs location keyword)]
    exact List.take_of_length_le (filter_jobs_length_le jobs location keyword)
  · exact (List.take_sublist _ _).trans (List.filter_sublist _)

/-- Witness for C8 at the spec's concrete filter scenario. -/
theorem C8_witness :
    filter_jobs (filter_jobs [cFilterJob] (pys "kathmandu") (pys "engineer"))
        (pys "kathmandu") (pys "engineer")
      = filter_jobs [cFilterJob] (pys "kathmandu") (pys "engineer") :=
  (C8_filter_idempotent_first5 [cFilterJob] (pys "kathmandu") (pys "engineer")).1

/-- C10: with an empty keyword the keyword test passes for every job, and
with both criteria empty `filter_jobs` returns the first `min(5, n)` jobs
unchanged and in order. -/
theorem C10_empty_keyword_first5 (jobs : List Job) :
    (∀ job : Job, keywordTest [] job = true) ∧
    filter_jobs jobs [] [] = jobs.take 5 := by
  constructor
  · intro job
    simp [keywordTest, isSubstr_nil]
  · show (jobs.filter (passes (pyLower []) (pyLower []))).take 5 = jobs.take 5
    have hlow : pyLower [] = [] := rfl
    rw [hlow, List.filter_eq_self.mpr (fun j _ => passes_nil j)]

/-- Witness for C10 on six concrete jobs: the first five come back unchanged. -/
theorem C10_witness :
    filter_jobs cSixJobs [] [] = cSixJobs.take 5 :=
  (C10_empty_keyword_first5 cSixJobs).2

/-- C9 counterexample: when navigation (`driver.get`) raises, the session was
launched but `driver.quit()` is never executed — the claim that the browser
session is always torn down fails on this run. -/
theorem C9_counterexample :
    (scrape_website cScrapeEnvGetFails).launched = true ∧
    (scrape_website cScrapeEnvGetFails).quitCalled = false := by
  exact ⟨rfl, rfl⟩

/-- C9 amended: `scrape_website` returns the empty string on any failure and
never raises, but tears the session down only on the all-successful path
(`driver.quit()` is the last statement of the `try` block; there is no
`finally`), so a failure after launch leaks the session. -/
theorem C9_amended_teardown (env : ScrapeEnv) :
    (env.anyFail = true → (scrape_website env).result = []) ∧
    ((scrape_website env).quitCalled = true ↔
      env.createFails = false ∧ env.getFails = false ∧ env.pageSourceFails = false) ∧
    ((scrape_website env).launched = true ↔ env.createFails = false) := by
  obtain ⟨c, g, p, q, src⟩ := env
  cases c <;> cases g <;> cases p <;> cases q <;>
    simp [scrape_website, ScrapeEnv.anyFail]

/-- Witness for C9 amended on a concrete failing run. -/
theorem C9_witness :
    (scrape_website cScrapeEnvGetFails).result = [] ∧
    ((scrape_website cScrapeEnvGetFails).quitCalled = true ↔
      cScrapeEnvGetFails.createFails = false ∧ cScrapeEnvGetFails.getFails = false ∧
      cScrapeEnvGetFails.pageSourceFails = false) :=
  ⟨(C9_amended_teardown cScrapeEnvGetFails).1 rfl,
   (C9_amended_teardown cScrapeEnvGetFails).2.1⟩

theorem mem_pyRemoveAllF (f : Nat) (pat s : List Char) :
    ∀ a ∈ pyRemoveAllF f pat s, a ∈ s := by
  induction f generalizing s with
  | zero => intro a ha; exact ha
  | succ f ih =>
    intro a ha
    cases s with
    | nil =>
      rw [pyRemoveAllF] at ha
      exact ha
    | cons c rest =>
      rw [pyRemoveAllF] at ha
      split at ha
      · exact List.mem_of_mem_drop (ih _ a ha)
      · cases ha with
        | head => exact List.mem_cons_self _ _
        | tail b h => exact List.mem_cons_of_mem _ (ih _ a h)

theorem mem_pyRemoveAll (pat s : List Char) :
    ∀ a ∈ pyRemoveAll pat s, a ∈ s :=
  mem_pyRemoveAllF _ pat s

theorem mem_dropTrailWs (s : List Char) : ∀ a ∈ dropTrailWs s, a ∈ s := by
  intro a ha
  rw [dropTrailWs] at ha
  have h1 : a ∈ s.reverse.dropWhile isPyWs := List.mem_reverse.mp ha
  have h2 : a ∈ s.reverse := (List.dropWhile_sublist _).subset h1
  exact List.mem_reverse.mp h2

theorem mem_pyStrip (s : List Char) : ∀ a ∈ pyStrip s, a ∈ s := by
  intro a ha
  exact (List.dropWhile_sublist isPyWs).subset (mem_dropTrailWs _ a ha)

theorem mem_preprocess (raw : List Char) : ∀ a ∈ preprocess raw, a ∈ raw := by
  intro a ha
  exact mem_pyRemoveAll _ _ a (mem_pyRemoveAll _ _ a (mem_pyStrip _ a ha))

theorem pyIndex_eq_none (c : Char) (s : List Char) (h : c ∉ s) :
    pyIndex c s = none := by
  induction s with
  | nil => rfl
  | cons x xs ih =>
    have h1 : c ∉ xs := fun hm => h (List.mem_cons_of_mem _ hm)
    have h2 : ¬ x = c := by
      intro he
      subst he
      exact h (List.mem_cons_self _ _)
    simp [pyIndex, h2, ih h1]

/-- C3 counterexample: the raw string `"42"` contains no braces, yet the
sanitizer's first `json.loads` attempt succeeds and returns the number `42`,
not the empty mapping. -/
theorem C3_counterexample :
    (lbrace ∉ pys "42" ∧ rbrace ∉ pys "42") ∧
    clean_json_response (pys "42") ≠ Json.obj [] := by
  refine ⟨by decide, fun h => ?_⟩
  rw [show clean_json_response (pys "42") = Json.num 42 0 from rfl] at h
  exact Json.noConfusion h

/-- C3 amended: for every raw string with no `\x7b` or no `\x7d` whose
fence-stripped form does not itself parse as JSON, the sanitizer returns the
empty mapping (and, being modeled as a total function, never raises: every
failure of the source is caught and mapped to `\x7b\x7d`). -/
theorem C3_amended_empty_mapping (raw : List Char)
    (hbrace : lbrace ∉ raw ∨ rbrace ∉ raw)
    (hfail : pyLoads (preprocess raw) = none) :
    clean_json_response raw = Json.obj [] := by
  rw [clean_json_response]
  simp only [hfail]
  rcases hbrace with hb | hb
  · rw [pyIndex_eq_none lbrace _ (fun hm => hb (mem_preprocess raw _ hm))]
  · rw [pyRindex, pyIndex_eq_none rbrace _
      (fun hm => hb (mem_preprocess raw _ (List.mem_reverse.mp hm)))]
    rcases pyIndex lbrace (preprocess raw) with _ | i <;> rfl

/-- Witness for C3 amended: a braceless, non-JSON raw response yields the
empty mapping. -/
theorem C3_witness :
    clean_json_response (pys "Sorry, I cannot answer that.") = Json.obj [] :=
  C3_amended_empty_mapping (pys "Sorry, I cannot answer that.")
    (Or.inl (by decide)) rfl

theorem pyIndex_append_first (c : Char) (pre t : List Char) (h : c ∉ pre) :
    pyIndex c (pre ++ c :: t) = some pre.length := by
  induction pre with
  | nil => simp [pyIndex]
  | cons x xs ih =>
    have hx : ¬ x = c := by
      intro he
      subst he
      exact h (List.mem_cons_self _ _)
    have h1 : c ∉ xs := fun hm => h (List.mem_cons_of_mem _ hm)
    simp [pyIndex, hx, ih h1]

/-- C4: for every raw response in which a single well-formed JSON object is
embedded — after fence-stripping, brace-free prose `pre`/`post` around an
object text `obj` that parses (the whole response itself not being valid
JSON) — the sanitizer returns exactly that object's parsed form. -/
theorem C4_single_object (raw pre obj post : List Char) (j : Json)
    (hresp : preprocess raw = pre ++ obj ++ post)
    (hpre : lbrace ∉ pre) (hpost : rbrace ∉ post)
    (hhead : obj.head? = some lbrace) (hlast : obj.getLast? = some rbrace)
    (hfail : pyLoads (preprocess raw) = none)
    (hparse : pyLoads (removeCtl obj) = some j) :
    clean_json_response raw = j := by
  rcases obj with _ | ⟨c, t⟩
  · simp at hhead
  obtain rfl : c = lbrace := by simpa using hhead
  have hrevhead : (lbrace :: t).reverse.head? = some rbrace := by
    rw [List.head?_reverse]
    exact hlast
  obtain ⟨r, hr⟩ : ∃ r, (lbrace :: t).reverse = rbrace :: r := by
    rcases hE : (lbrace :: t).reverse with _ | ⟨x, r⟩
    · rw [hE] at hrevhead
      simp at hrevhead
    · rw [hE] at hrevhead
      simp at hrevhead
      exact ⟨r, by rw [hrevhead]⟩
  have hlen_t : t.length = r.length := by
    have := congrArg List.length hr
    simpa using this
  have hidx : pyIndex lbrace (preprocess raw) = some pre.length := by
    rw [hresp, List.append_assoc]
    exact pyIndex_append_first lbrace pre (t ++ post) hpre
  have hrindex : pyRindex rbrace (preprocess raw) = some (pre.length + r.length) := by
    rw [pyRindex, hresp]
    have hrev : (pre ++ (lbrace :: t) ++ post).reverse
        = post.reverse ++ rbrace :: (r ++ pre.reverse) := by
      rw [List.reverse_append, List.reverse_append, hr]
      simp
    rw [hrev, pyIndex_append_first rbrace post.reverse (r ++ pre.reverse)
      (fun hm => hpost (List.mem_reverse.mp hm))]
    simp
    omega
  have hslice : (((pre ++ (lbrace :: t) ++ post).drop pre.length).take
      (pre.length + r.length + 1 - pre.length)) = lbrace :: t := by
    rw [List.append_assoc, List.drop_left]
    have harith : pre.length + r.length + 1 - pre.length = (lbrace :: t).length := by
      simp only [List.length_cons, hlen_t]
      omega
    rw [harith, List.take_left]
  rw [clean_json_response]
  simp only [hfail, hidx, hrindex]
  rw [hresp, hslice, hparse]

/-- Witness for C4 at the spec's concrete scenario: a fenced
`\x7b"match_score": 85\x7d` inside prose is recovered. -/
theorem C4_witness :
    clean_json_response
        (pys "Here is the result:\n```json\n\x7b\"match_score\": 85\x7d\n```")
      = Json.obj [(pys "match_score", Json.num 85 0)] :=
  C4_single_object _ (pys "Here is the result:\n\n")
    (pys "\x7b\"match_score\": 85\x7d") [] _
    (by decide) (by decide) (by decide) rfl rfl rfl rfl

theorem pyStrip_length_le (s : List Char) : (pyStrip s).length ≤ s.length := by
  have h1 : (dropTrailWs (dropLeadWs s)).length ≤ (dropLeadWs s).length := by
    rw [dropTrailWs, List.length_reverse]
    have := (List.dropWhile_sublist (l := (dropLeadWs s).reverse) isPyWs).length_le
    simpa using this
  exact le_trans h1 (List.dropWhile_sublist _).length_le

theorem chunksGo_chunk_bound (maxChars : Nat) (L : List (List Char)) :
    ∀ (R : List (List Char)) (cur : List Char),
      (∀ p ∈ R, p ∈ L) →
      (cur.length ≤ maxChars ∨ cur ∈ L) →
      ∀ c ∈ chunksGo maxChars R cur,
        c.length ≤ maxChars ∨ ∃ p, p ∈ L ∧ c = pyStrip p ∧ maxChars < p.length := by
  intro R
  induction R with
  | nil =>
    intro cur hR hcur c hc
    rw [chunksGo] at hc
    split at hc
    · simp at hc
    · simp at hc
      subst hc
      rcases hcur with h | h
      · exact Or.inl (le_trans (pyStrip_length_le cur) h)
      · by_cases hlen : cur.length ≤ maxChars
        · exact Or.inl (le_trans (pyStrip_length_le cur) hlen)
        · exact Or.inr ⟨cur, h, rfl, by omega⟩
  | cons p R' ih =>
    intro cur hR hcur c hc
    rw [chunksGo] at hc
    split at hc
    · cases hc with
      | head =>
        rcases hcur with h | h
        · exact Or.inl (le_trans (pyStrip_length_le cur) h)
        · by_cases hlen : cur.length ≤ maxChars
          · exact Or.inl (le_trans (pyStrip_length_le cur) hlen)
          · exact Or.inr ⟨cur, h, rfl, by omega⟩
      | tail b h =>
        exact ih p (fun q hq => hR q (List.mem_cons_of_mem _ hq))
          (Or.inr (hR p (List.mem_cons_self _ _))) c h
    · rename_i hcond
      refine ih (cur ++ '\n' :: p) (fun q hq => hR q (List.mem_cons_of_mem _ hq))
        (Or.inl ?_) c hc
      simp only [List.length_append, List.length_cons]
      omega

/-- C6: every chunk produced by `split_dom_content` fits in `maxChars`,
except a chunk that is (the stripped form of) a single newline-delimited
line whose own length exceeds `maxChars`. -/
theorem C6_chunk_size (content : List Char) (maxChars : Nat) (c : List Char)
    (hc : c ∈ split_dom_content content maxChars) :
    c.length ≤ maxChars ∨
    ∃ p, p ∈ splitOnNl content ∧ c = pyStrip p ∧ maxChars < p.length :=
  chunksGo_chunk_bound maxChars (splitOnNl content) (splitOnNl content) []
    (fun _ hp => hp) (Or.inl (by simp)) c hc

/-- Witness for C6: with `max_chars = 5`, the oversized single line
`"cdefghijkl"` appears as its own chunk. -/
theorem C6_witness :
    (pys "cdefghijkl") ∈ split_dom_content (pys "ab\ncdefghijkl\nxy") 5 ∧
    ((pys "cdefghijkl").length ≤ 5 ∨
      ∃ p, p ∈ splitOnNl (pys "ab\ncdefghijkl\nxy") ∧
        pys "cdefghijkl" = pyStrip p ∧ 5 < p.length) :=
  ⟨by decide, C6_chunk_size _ 5 _ (by decide)⟩

theorem splitOnNl_ne_nil (cs : List Char) : splitOnNl cs ≠ [] := by
  cases cs with
  | nil => simp [splitOnNl]
  | cons c rest =>
    by_cases hc : c = '\n'
    · simp [splitOnNl, hc]
    · rw [splitOnNl, if_neg hc]
      rcases h : splitOnNl rest with _ | ⟨l, ls⟩ <;> simp

theorem joinNl_cons (c : List Char) (cs : List (List Char)) (h : cs ≠ []) :
    joinNl (c :: cs) = c ++ '\n' :: joinNl cs := by
  rcases cs with _ | ⟨d, ds⟩
  · exact absurd rfl h
  · rfl

theorem joinNl_eq_head_flat (p : List Char) (ls : List (List Char)) :
    joinNl (p :: ls) = p ++ flatNl ls := by
  induction ls generalizing p with
  | nil => simp [joinNl, flatNl]
  | cons l ls ih =>
    rw [joinNl_cons p (l :: ls) (by simp), ih l]
    simp [flatNl]

theorem splitOnNl_join (cs : List Char) : joinNl (splitOnNl cs) = cs := by
  induction cs with
  | nil => rfl
  | cons c rest ih =>
    by_cases hc : c = '\n'
    · subst hc
      rw [splitOnNl, if_pos rfl, joinNl_cons _ _ (splitOnNl_ne_nil rest), ih]
      rfl
    · rw [splitOnNl, if_neg hc]
      rcases h : splitOnNl rest with _ | ⟨l, ls⟩
      · exact absurd h (splitOnNl_ne_nil rest)
      · rw [h] at ih
        rcases ls with _ | ⟨m, ms⟩
        · simp [joinNl] at ih ⊢
          rw [ih]
        · rw [joinNl_cons (c :: l) (m :: ms) (by simp)]
          rw [joinNl_cons l (m :: ms) (by simp)] at ih
          rw [List.cons_append, ih]

theorem dropLeadWs_cons_neg (c : Char) (t : List Char) (h : isPyWs c = false) :
    dropLeadWs (c :: t) = c :: t := by
  simp [dropLeadWs, List.dropWhile_cons, h]

theorem dropLeadWs_cons_pos (c : Char) (t : List Char) (h : isPyWs c = true) :
    dropLeadWs (c :: t) = dropLeadWs t := by
  simp [dropLeadWs, List.dropWhile_cons, h]

theorem dropLeadWs_append (u v : List Char) (h : dropLeadWs u ≠ []) :
    dropLeadWs (u ++ v) = dropLeadWs u ++ v := by
  have h' : (u.dropWhile isPyWs).isEmpty = false := by
    rw [List.isEmpty_eq_false]
    exact h
  rw [dropLeadWs, List.dropWhile_append, h']
  simp [dropLeadWs]

theorem dropTrailWs_eq_self (l : List Char) (b : Char) (hb : l.getLast? = some b)
    (hws : isPyWs b = false) : dropTrailWs l = l := by
  rcases hE : l.reverse with _ | ⟨x, r⟩
  · have hl : l = [] := by
      have := congrArg List.reverse hE
      simpa using this
    subst hl
    simp at hb
  · have hx : x = b := by
      have h1 := List.head?_reverse l
      rw [hE, hb] at h1
      simpa using h1
    subst hx
    have h2 : (x :: r).reverse = l := by
      have := congrArg List.reverse hE
      simpa using this.symm
    rw [dropTrailWs, hE, List.dropWhile_cons, hws]
    simpa using h2

theorem getLast?_dropLeadWs (cur : List Char) (h : dropLeadWs cur ≠ []) :
    cur.getLast? = (dropLeadWs cur).getLast? := by
  obtain ⟨t, ht⟩ := List.dropWhile_suffix (l := cur) isPyWs
  obtain ⟨x, hx⟩ : ∃ x, (dropLeadWs cur).getLast? = some x := by
    rcases hE : (dropLeadWs cur).getLast? with _ | x
    · exact absurd (List.getLast?_eq_none_iff.mp hE) h
    · exact ⟨x, rfl⟩
  have hx' : (cur.dropWhile isPyWs).getLast? = some x := hx
  conv_lhs => rw [← ht]
  rw [List.getLast?_append, hx', hx]
  rfl

theorem pyStrip_eq_dropLeadWs (cur : List Char)
    (hlast : ∀ b, cur.getLast? = some b → isPyWs b = false)
    (hdl : dropLeadWs cur ≠ []) :
    pyStrip cur = dropLeadWs cur := by
  obtain ⟨x, hx⟩ : ∃ x, (dropLeadWs cur).getLast? = some x := by
    rcases hE : (dropLeadWs cur).getLast? with _ | x
    · exact absurd (List.getLast?_eq_none_iff.mp hE) hdl
    · exact ⟨x, rfl⟩
  have hcl : cur.getLast? = some x := by
    rw [getLast?_dropLeadWs cur hdl]
    exact hx
  exact dropTrailWs_eq_self (dropLeadWs cur) x hx (hlast x hcl)

theorem chunksGo_ne_nil (maxChars : Nat) :
    ∀ (R : List (List Char)) (cur : List Char), cur ≠ [] →
      chunksGo maxChars R cur ≠ [] := by
  intro R
  induction R with
  | nil =>
    intro cur h
    rw [chunksGo]
    have : cur.isEmpty = false := by
      rw [List.isEmpty_eq_false]
      exact h
    simp [this]
  | cons p R' ih =>
    intro cur h
    rw [chunksGo]
    split
    · simp
    · exact ih _ (by simp)

theorem trimmedLine_parts {p : List Char} (h : trimmedLine p = true) :
    p ≠ [] ∧ (∀ a, p.head? = some a → isPyWs a = false) ∧
    (∀ b, p.getLast? = some b → isPyWs b = false) := by
  rw [trimmedLine, Bool.and_eq_true, Bool.and_eq_true] at h
  obtain ⟨⟨h1, h2⟩, h3⟩ := h
  refine ⟨?_, ?_, ?_⟩
  · rw [Bool.not_eq_true'] at h1
    rw [← List.isEmpty_eq_false]
    exact h1
  · intro a ha
    rw [ha] at h2
    simpa using h2
  · intro b hb
    rw [hb] at h3
    simpa using h3

theorem chunksGo_join (maxChars : Nat) :
    ∀ (R : List (List Char)) (cur : List Char),
      (∀ p ∈ R, trimmedLine p = true) →
      cur ≠ [] →
      (∀ b, cur.getLast? = some b → isPyWs b = false) →
      dropLeadWs cur ≠ [] →
      joinNl (chunksGo maxChars R cur) = dropLeadWs cur ++ flatNl R := by
  intro R
  induction R with
  | nil =>
    intro cur hR hne hlast hdl
    rw [chunksGo]
    have hie : cur.isEmpty = false := by
      rw [List.isEmpty_eq_false]
      exact hne
    simp only [hie, Bool.false_eq_true, if_false]
    rw [show joinNl [pyStrip cur] = pyStrip cur from rfl,
      pyStrip_eq_dropLeadWs cur hlast hdl, flatNl]
    simp
  | cons p R' ih =>
    intro cur hR hne hlast hdl
    obtain ⟨hpne, hphead, hplast⟩ := trimmedLine_parts (hR p (List.mem_cons_self _ _))
    have hR' : ∀ q ∈ R', trimmedLine q = true :=
      fun q hq => hR q (List.mem_cons_of_mem _ hq)
    have hpdl : dropLeadWs p = p := by
      rcases hP : p with _ | ⟨a, t⟩
      · exact absurd hP hpne
      · refine dropLeadWs_cons_neg a t (hphead a ?_)
        rw [hP]
        rfl
    rw [chunksGo]
    split
    · rw [joinNl_cons _ _ (chunksGo_ne_nil maxChars R' p hpne),
        pyStrip_eq_dropLeadWs cur hlast hdl,
        ih p hR' hpne hplast (by rw [hpdl]; exact hpne)]
      rw [hpdl, flatNl]
      simp [flatNl]
    · have hcur' : cur ++ '\n' :: p ≠ [] := by simp
      have hlast' : ∀ b, (cur ++ '\n' :: p).getLast? = some b → isPyWs b = false := by
        intro b hb
        rw [List.getLast?_append] at hb
        have hnp : ('\n' :: p).getLast? = p.getLast? := by
          rcases hP : p with _ | ⟨a, t⟩
          · exact absurd hP hpne
          · simp
        rw [hnp] at hb
        obtain ⟨x, hx⟩ : ∃ x, p.getLast? = some x := by
          rcases hE : p.getLast? with _ | x
          · exact absurd (List.getLast?_eq_none_iff.mp hE) hpne
          · exact ⟨x, rfl⟩
        rw [hx] at hb
        simp at hb
        subst hb
        exact hplast x hx
      have hdl' : dropLeadWs (cur ++ '\n' :: p) ≠ [] := by
        rw [dropLeadWs_append cur ('\n' :: p) hdl]
        simp
      rw [ih (cur ++ '\n' :: p) hR' hcur' hlast' hdl',
        dropLeadWs_append cur ('\n' :: p) hdl]
      simp [flatNl]

/-- C5 counterexample: `split_dom_content` strips each chunk, so joining the
chunks back with newlines does not reproduce an input whose line carries
whitespace — a single space collapses to the empty chunk. -/
theorem C5_counterexample :
    joinNl (split_dom_content (pys " ") 2000) ≠ pys " " := by
  intro h
  rw [show joinNl (split_dom_content (pys " ") 2000) = [] from rfl] at h
  exact List.noConfusion h

/-- C5 amended: joining the chunks with the newline separators reinserted
reproduces the original text, provided every newline-delimited line is
non-empty with no leading or trailing whitespace (otherwise the per-chunk
`strip()` loses boundary whitespace or boundary empty lines) and the first
line fits within `max_chars` (otherwise an empty first chunk is emitted). -/
theorem C5_amended_reconstruction (content : List Char) (maxChars : Nat)
    (hlines : ∀ p ∈ splitOnNl content, trimmedLine p = true)
    (hfirst : ∀ p₀, (splitOnNl content).head? = some p₀ →
      p₀.length + 1 ≤ maxChars) :
    joinNl (split_dom_content content maxChars) = content := by
  rcases hE : splitOnNl content with _ | ⟨p₀, rest⟩
  · exact absurd hE (splitOnNl_ne_nil content)
  obtain ⟨h0ne, h0head, h0last⟩ := trimmedLine_parts
    (hlines p₀ (hE ▸ List.mem_cons_self _ _))
  have h0fit : ¬ ([] : List Char).length + p₀.length + 1 > maxChars := by
    have := hfirst p₀ (by rw [hE]; rfl)
    simp only [List.length_nil]
    omega
  have hrest : ∀ q ∈ rest, trimmedLine q = true := by
    intro q hq
    exact hlines q (hE ▸ List.mem_cons_of_mem _ hq)
  have hstep : split_dom_content content maxChars
      = chunksGo maxChars rest ('\n' :: p₀) := by
    rw [split_dom_content, hE, chunksGo, if_neg h0fit]
    rfl
  have hlast : ∀ b, ('\n' :: p₀).getLast? = some b → isPyWs b = false := by
    intro b hb
    rcases hP : p₀ with _ | ⟨a, t⟩
    · exact absurd hP h0ne
    · rw [hP] at hb
      simp at hb
      exact h0last b (by rw [hP]; simpa using hb)
  have hdl : dropLeadWs ('\n' :: p₀) = p₀ := by
    rw [dropLeadWs_cons_pos '\n' p₀ rfl]
    rcases hP : p₀ with _ | ⟨a, t⟩
    · exact absurd hP h0ne
    · refine dropLeadWs_cons_neg a t (h0head a ?_)
      rw [hP]
      rfl
  rw [hstep, chunksGo_join maxChars rest ('\n' :: p₀) hrest (by simp) hlast
    (by rw [hdl]; exact h0ne), hdl, ← joinNl_eq_head_flat, ← hE,
    splitOnNl_join]

/-- Witness for C5 amended on a concrete three-line input that splits into
two chunks. -/
theorem C5_witness :
    joinNl (split_dom_content (pys "abc\nde\nfghij") 8) = pys "abc\nde\nfghij" :=
  C5_amended_reconstruction (pys "abc\nde\nfghij") 8 (by decide) (by decide)

theorem insertKeyedDesc_perm (x : ℚ × MatchedJob) (l : List (ℚ × MatchedJob)) :
    List.Perm (insertKeyedDesc x l) (x :: l) := by
  induction l with
  | nil => exact List.Perm.refl _
  | cons y ys ih =>
    rw [insertKeyedDesc]
    split
    · exact List.Perm.refl _
    · exact (List.Perm.cons y ih).trans (List.Perm.swap x y ys)

theorem sortKeyedDesc_perm (l : List (ℚ × MatchedJob)) :
    List.Perm (sortKeyedDesc l) l := by
  induction l with
  | nil => exact List.Perm.refl _
  | cons x xs ih =>
    exact (insertKeyedDesc_perm x (sortKeyedDesc xs)).trans (List.Perm.cons x ih)

theorem insertKeyedDesc_sorted (x : ℚ × MatchedJob) (l : List (ℚ × MatchedJob))
    (h : l.Pairwise (fun a b => b.1 ≤ a.1)) :
    (insertKeyedDesc x l).Pairwise (fun a b => b.1 ≤ a.1) := by
  induction l with
  | nil => simp [insertKeyedDesc]
  | cons y ys ih =>
    obtain ⟨hy, hys⟩ := List.pairwise_cons.mp h
    rw [insertKeyedDesc]
    split
    · rename_i hle
      refine List.pairwise_cons.mpr ⟨?_, h⟩
      intro z hz
      cases hz with
      | head => exact hle
      | tail b hz' => exact le_trans (hy z hz') hle
    · rename_i hgt
      refine List.pairwise_cons.mpr ⟨?_, ih hys⟩
      intro z hz
      have hz' : z ∈ x :: ys := (insertKeyedDesc_perm x ys).mem_iff.mp hz
      cases hz' with
      | head => exact le_of_not_le hgt
      | tail b hz'' => exact hy z hz''

theorem sortKeyedDesc_sorted (l : List (ℚ × MatchedJob)) :
    (sortKeyedDesc l).Pairwise (fun a b => b.1 ≤ a.1) := by
  induction l with
  | nil => simp [sortKeyedDesc]
  | cons x xs ih => exact insertKeyedDesc_sorted x (sortKeyedDesc xs) ih

theorem filter_insertKeyedDesc_eq (q : ℚ) (x : ℚ × MatchedJob)
    (l : List (ℚ × MatchedJob)) (hx : x.1 = q) :
    (insertKeyedDesc x l).filter (fun z => decide (z.1 = q))
      = x :: l.filter (fun z => decide (z.1 = q)) := by
  induction l with
  | nil => simp [insertKeyedDesc, hx]
  | cons y ys ih =>
    rw [insertKeyedDesc]
    split
    · simp [List.filter_cons, hx]
    · rename_i hgt
      have hyq : ¬ (y.1 = q) := by
        intro he
        exact hgt (le_of_eq (hx ▸ he))
      simp [List.filter_cons, hyq, ih]

theorem filter_insertKeyedDesc_ne (q : ℚ) (x : ℚ × MatchedJob)
    (l : List (ℚ × MatchedJob)) (hx : ¬ x.1 = q) :
    (insertKeyedDesc x l).filter (fun z => decide (z.1 = q))
      = l.filter (fun z => decide (z.1 = q)) := by
  induction l with
  | nil => simp [insertKeyedDesc, hx]
  | cons y ys ih =>
    rw [insertKeyedDesc]
    split
    · simp [List.filter_cons, hx]
    · simp [List.filter_cons, ih]

theorem sortKeyedDesc_stable (q : ℚ) (l : List (ℚ × MatchedJob)) :
    (sortKeyedDesc l).filter (fun z => decide (z.1 = q))
      = l.filter (fun z => decide (z.1 = q)) := by
  induction l with
  | nil => rfl
  | cons x xs ih =>
    show ((insertKeyedDesc x (sortKeyedDesc xs)).filter _) = _
    by_cases hx : x.1 = q
    · rw [filter_insertKeyedDesc_eq q x _ hx, ih, List.filter_cons]
      simp [hx]
    · rw [filter_insertKeyedDesc_ne q x _ hx, ih, List.filter_cons]
      simp [hx]

theorem computeKeys_ok (l : List MatchedJob) (dec : List (ℚ × MatchedJob))
    (h : computeKeys l = .ok dec) : dec = l.map (fun e => (scoreOf e, e)) := by
  induction l generalizing dec with
  | nil =>
    cases h
    rfl
  | cons e es ih =>
    rw [computeKeys] at h
    rcases hk : keyQ e with err | q
    · rw [hk] at h
      exact absurd h (by simp)
    · rw [hk] at h
      rcases hc : computeKeys es with err | rest
      · rw [hc] at h
        exact absurd h (by simp)
      · rw [hc] at h
        cases h
        rw [List.map_cons, ← ih rest hc]
        have : scoreOf e = q := by rw [scoreOf, hk]
        rw [this]

theorem match_resume_ok_shape (resume : PyDict)
    (llm : Job → Except (List Char) (List Char)) (jobs : List Job)
    (out : List MatchedJob)
    (hres : hasKey resume (pys "error") = false)
    (hok : match_resume_to_jobs resume llm jobs = .ok out) :
    out = (sortKeyedDesc ((jobs.map (matchOne llm)).map
      (fun e => (scoreOf e, e)))).map (fun kv => kv.2) := by
  rw [match_resume_to_jobs, hres] at hok
  simp only [Bool.false_eq_true, if_false] at hok
  rcases hc : computeKeys (jobs.map (matchOne llm)) with err | dec
  · rw [hc] at hok
    exact absurd hok (by simp)
  · rw [hc] at hok
    cases hok
    rw [computeKeys_ok _ _ hc]

theorem mem_sortKeyedDesc_fst (l : List MatchedJob)
    (z : ℚ × MatchedJob)
    (hz : z ∈ sortKeyedDesc (l.map (fun e => (scoreOf e, e)))) :
    z.1 = scoreOf z.2 := by
  have hz' : z ∈ l.map (fun e => (scoreOf e, e)) :=
    (sortKeyedDesc_perm _).mem_iff.mp hz
  obtain ⟨e, _, he⟩ := List.mem_map.mp hz'
  rw [← he]

/-- C7: the list returned by `match_resume_to_jobs` is sorted descending by
`match_details.match_score` (any entry's score is at least any later entry's),
ties keep their original relative order (score-classes are preserved exactly
as in the pre-sort pass), and on the spec's seven-job scenario the top-5
truncation is `[90, 90, 70, 55, 40]` with job 1's 90 before job 3's 90. -/
theorem C7_ranking_sorted_stable :
    (∀ (resume : PyDict) (llm : Job → Except (List Char) (List Char))
        (jobs : List Job) (out : List MatchedJob),
      match_resume_to_jobs resume llm jobs = .ok out →
      out.Pairwise (fun a b => scoreOf b ≤ scoreOf a) ∧
      (hasKey resume (pys "error") = false →
        ∀ q : ℚ, out.filter (fun e => decide (scoreOf e = q))
          = (jobs.map (matchOne llm)).filter (fun e => decide (scoreOf e = q)))) ∧
    (match_resume_to_jobs [] cOracle7 cJobs7).map
        (fun l => (l.take 5).map (fun e => (e.job.job_title, scoreOf e)))
      = .ok [(pys "j1", 90), (pys "j3", 90), (pys "j5", 70),
             (pys "j7", 55), (pys "j2", 40)] := by
  constructor
  · intro resume llm jobs out hok
    by_cases hres : hasKey resume (pys "error") = true
    · rw [match_resume_to_jobs, hres] at hok
      simp only [if_true] at hok
      cases hok
      exact ⟨List.Pairwise.nil, fun hres' _ => by rw [hres] at hres'; cases hres'⟩
    · rw [Bool.not_eq_true] at hres
      have hshape := match_resume_ok_shape resume llm jobs out hres hok
      constructor
      · rw [hshape, List.pairwise_map]
        refine List.Pairwise.imp_of_mem ?_
          (sortKeyedDesc_sorted ((jobs.map (matchOne llm)).map (fun e => (scoreOf e, e))))
        intro a b ha hb hab
        rw [← mem_sortKeyedDesc_fst _ a ha, ← mem_sortKeyedDesc_fst _ b hb]
        exact hab
      · intro _ q
        rw [hshape, List.filter_map]
        have hcong : ∀ z ∈ sortKeyedDesc ((jobs.map (matchOne llm)).map
            (fun e => (scoreOf e, e))),
            ((fun e => decide (scoreOf e = q)) ∘ (fun kv : ℚ × MatchedJob => kv.2)) z
              = (fun z : ℚ × MatchedJob => decide (z.1 = q)) z := by
          intro z hz
          show decide (scoreOf z.2 = q) = decide (z.1 = q)
          rw [mem_sortKeyedDesc_fst _ z hz]
        rw [List.filter_congr hcong, sortKeyedDesc_stable q, List.filter_map,
          List.map_map]
        have hcong2 : ∀ e ∈ jobs.map (matchOne llm),
            ((fun z : ℚ × MatchedJob => decide (z.1 = q)) ∘
              (fun e => (scoreOf e, e))) e
              = (fun e => decide (scoreOf e = q)) e := fun e _ => rfl
        rw [List.filter_congr hcong2]
        have hid : ((fun kv : ℚ × MatchedJob => kv.2) ∘ fun e : MatchedJob => (scoreOf e, e))
            = fun e : MatchedJob => e := rfl
        rw [hid]
        simp
  · rfl

/-- Witness for C7 at the seven-job scenario. -/
theorem C7_witness :
    match_resume_to_jobs [] cOracle7 cJobs7 = .ok cOut7 ∧
    cOut7.Pairwise (fun a b => scoreOf b ≤ scoreOf a) :=
  ⟨rfl, (C7_ranking_sorted_stable.1 [] cOracle7 cJobs7 cOut7 rfl).1⟩

/-- C2 counterexample: in the f.py variant of `match_resume_to_jobs`, a job
whose matching step raises (`cJobA`, oracle error `"boom"`) is dropped from
the returned list instead of carrying a placeholder. -/
theorem C2_counterexample :
    cJobA ∈ [cJobA, cJobB] ∧
    f_match_resume_to_jobs [] cOracleDrop [cJobA, cJobB] = .ok [⟨cJobB, cMd 50⟩] ∧
    ∀ e ∈ [(⟨cJobB, cMd 50⟩ : MatchedJob)], e.job ≠ cJobA := by
  refine ⟨List.mem_cons_self _ _, rfl, ?_⟩
  intro e he
  cases he with
  | head => decide
  | tail b h => exact absurd h (List.not_mem_nil e)

/-- C2 amended: in the fapp.py `match_resume_to_jobs` (when the resume parsed
and the sort succeeds), the output is a permutation of one matched entry per
input job — no job is dropped, each carries `match_details`, and a job whose
LLM call raised carries the score-0 placeholder with the diagnostic reasoning
string; the f.py variant instead drops such jobs (see the counterexample). -/
theorem C2_amended_no_job_dropped :
    ∀ (resume : PyDict) (llm : Job → Except (List Char) (List Char))
      (jobs : List Job) (out : List MatchedJob),
      hasKey resume (pys "error") = false →
      match_resume_to_jobs resume llm jobs = .ok out →
      List.Perm out (jobs.map (matchOne llm)) ∧
      (∀ j ∈ jobs, matchOne llm j ∈ out) ∧
      (∀ j msg, llm j = .error msg →
        (matchOne llm j).match_details = errorPlaceholder msg ∧
        scoreOf (matchOne llm j) = 0) := by
  intro resume llm jobs out hres hok
  have hshape := match_resume_ok_shape resume llm jobs out hres hok
  have hperm : List.Perm out (jobs.map (matchOne llm)) := by
    rw [hshape]
    have h1 := (sortKeyedDesc_perm ((jobs.map (matchOne llm)).map
      (fun e => (scoreOf e, e)))).map (fun kv : ℚ × MatchedJob => kv.2)
    refine h1.trans ?_
    rw [List.map_map]
    have h2 : List.map ((fun kv : ℚ × MatchedJob => kv.2) ∘ fun e => (scoreOf e, e))
        (jobs.map (matchOne llm)) = jobs.map (matchOne llm) := by simp
    rw [h2]
  refine ⟨hperm, ?_, ?_⟩
  · intro j hj
    exact hperm.mem_iff.mpr (List.mem_map_of_mem _ hj)
  · intro j msg hmsg
    constructor
    · rw [matchOne, hmsg]
    · rw [matchOne, hmsg]
      rfl

/-- Witness for C2 amended: with an oracle that raises on `cJobA`, the job is
kept with the error placeholder and score 0. -/
theorem C2_witness :
    match_resume_to_jobs [] cOracleDrop [cJobA, cJobB] = .ok cOutDrop ∧
    matchOne cOracleDrop cJobA ∈ cOutDrop ∧
    (matchOne cOracleDrop cJobA).match_details = errorPlaceholder (pys "boom") :=
  ⟨rfl,
   (C2_amended_no_job_dropped [] cOracleDrop [cJobA, cJobB] cOutDrop rfl rfl).2.1
     cJobA (List.mem_cons_self _ _),
   ((C2_amended_no_job_dropped [] cOracleDrop [cJobA, cJobB] cOutDrop rfl rfl).2.2
     cJobA (pys "boom") rfl).1⟩

/-- C1 counterexample: on a request whose resume parse reports an error (with
at least one job surviving the filter), the upload flow does not surface a
failure — it flashes success and overwrites the result file with the filtered
jobs. -/
theorem C1_counterexample :
    (uploadPost cReq [cJobA] cErrResume cOracleNever).written
        = some (.fallbackTop [cJobA]) ∧
    (uploadPost cReq [cJobA] cErrResume cOracleNever).flashes
      = [(pys "Resume uploaded and processed successfully!", pys "success")] ∧
    match_resume_to_jobs cErrResume cOracleNever [cJobA] = .ok [] :=
  ⟨rfl, rfl, rfl⟩

/-- C1 amended: when the resume parse reports an error, `match_resume_to_jobs`
does return the empty list; but the upload flow (fapp.py lines 262-269) then
substitutes the filtered jobs, writes their top five to
`output/top_5_matched_jobs.json`, flashes success, and redirects to the
results page — no user-visible failure is reported and the result file is
overwritten. -/
theorem C1_amended_parse_error_flow (req : UploadRequest) (scraped : List Job)
    (resume : PyDict) (llm : Job → Except (List Char) (List Char))
    (h1 : req.hasResumeFile = true) (h2 : req.filename.isEmpty = false)
    (h3 : allowed_file req.filename = true)
    (herr : hasKey resume (pys "error") = true)
    (hf : (filter_jobs scraped (pyLower (pyStrip req.location))
      (pyLower (pyStrip req.jobPreference))).isEmpty = false) :
    match_resume_to_jobs resume llm
        (filter_jobs scraped (pyLower (pyStrip req.location))
          (pyLower (pyStrip req.jobPreference))) = .ok [] ∧
    uploadPost req scraped resume llm =
      ⟨[(pys "Resume uploaded and processed successfully!", pys "success")],
       some (.fallbackTop ((filter_jobs scraped (pyLower (pyStrip req.location))
         (pyLower (pyStrip req.jobPreference))).take 5)), pys "results"⟩ := by
  have hmrj : ∀ js, match_resume_to_jobs resume llm js = .ok [] := by
    intro js
    rw [match_resume_to_jobs, herr]
    simp
  refine ⟨hmrj _, ?_⟩
  rw [uploadPost]
  simp only [h1, h2, h3, hf, hmrj, Bool.not_true, Bool.false_eq_true, if_false,
    List.isEmpty_nil, if_true]

/-- Witness for C1 amended on the concrete parse-error run. -/
theorem C1_witness :
    match_resume_to_jobs cErrResume cOracleNever
        (filter_jobs [cJobA] (pyLower (pyStrip cReq.location))
          (pyLower (pyStrip cReq.jobPreference))) = .ok [] ∧
    uploadPost cReq [cJobA] cErrResume cOracleNever =
      ⟨[(pys "Resume uploaded and processed successfully!", pys "success")],
       some (.fallbackTop ((filter_jobs [cJobA] (pyLower (pyStrip cReq.location))
         (pyLower (pyStrip cReq.jobPreference))).take 5)), pys "results"⟩ :=
  C1_amended_parse_error_flow cReq [cJobA] cErrResume cOracleNever
    rfl rfl rfl rfl rfl

end CVision
